import Mathlib

/-!
Verification of the kvs storage engine (src/kv.rs).

The engine is modelled at the granularity of encoded commands: a segment
file is the list of commands it contains, in append order, and byte
offsets are recovered from the (self-delimiting) serde_json encoding
lengths.  String lengths are byte counts assuming no JSON escaping is
needed (the encoding length formulas below are those of serde_json for
this enum).  Fallible paths are modelled with Option/Except: a `none`
result of `compact`/`apply` models the `expect("segment reader not
found")` panic (or a raw byte copy that does not cover exactly one
record, which a command-granularity model cannot represent and which
cannot arise in well-formed states).
-/

namespace Kvs

/-- Commands persisted to the log, from enum Command in kv.rs. -/
inductive Command where
  | set (key value : String)
  | remove (key : String)
deriving DecidableEq, Repr

/-- Byte length of the serde_json encoding of a command, assuming no
character of the key/value needs JSON escaping.
For Set: the text has shape with fixed overhead 29 plus key and value.
For Remove: fixed overhead 21 plus the key. -/
def encLen : Command → Nat
  | .set k v => 29 + k.length + v.length
  | .remove k => 21 + k.length

/-- Position of one encoded command: (segment id, byte offset, byte length),
from struct CommandPosition in kv.rs. -/
structure CommandPosition where
  segment : Nat
  offset : Nat
  len : Nat
deriving DecidableEq, Repr

/-- The in-memory index: key to position of the latest live Set.
Models the HashMap with first-match association-list semantics; keys are
kept unique by construction. -/
abbrev Index := List (String × CommandPosition)

/-- The reader pool: segment id to current cursor position of its reader. -/
abbrev Readers := List (Nat × Nat)

/-- The on-disk state: segment id to file content (list of commands). -/
abbrev Disk := List (Nat × List Command)

/-- Association list lookup (first match), models HashMap::get. -/
def alookup {β : Type} : List (Nat × β) → Nat → Option β
  | [], _ => none
  | (k', v) :: t, k => if k' = k then some v else alookup t k

/-- Index lookup by string key, models HashMap::get on the index. -/
def ilookup : Index → String → Option CommandPosition
  | [], _ => none
  | (k', v) :: t, k => if k' = k then some v else ilookup t k

/-- Index insert, models HashMap::insert: replace the first binding of the
key in place, or append a fresh binding. -/
def iinsert : Index → String → CommandPosition → Index
  | [], k, v => [(k, v)]
  | (k', v') :: t, k, v => if k' = k then (k, v) :: t else (k', v') :: iinsert t k v

/-- Index erase, models HashMap::remove (keys are unique by construction). -/
def ierase (m : Index) (k : String) : Index :=
  m.filter (fun p => p.1 ≠ k)

/-- Reader-pool insert, models HashMap::insert for readers. -/
def rinsert : Readers → Nat → Nat → Readers
  | [], k, v => [(k, v)]
  | (k', v') :: t, k, v => if k' = k then (k, v) :: t else (k', v') :: rinsert t k v

/-- Append one encoded command to the segment file with the given id
(models a write through the active-segment BufWriter plus flush). -/
def fappend : Disk → Nat → Command → Disk
  | [], seg, c => [(seg, [c])]
  | (i, f) :: t, seg, c =>
      if i = seg then (i, f ++ [c]) :: t else (i, f) :: fappend t seg c

/-- Create a segment file if absent, models OpenOptions create(true)
append(true): an existing file keeps its content. -/
def fcreate : Disk → Nat → Disk
  | [], seg => [(seg, [])]
  | (i, f) :: t, seg =>
      if i = seg then (i, f) :: t else (i, f) :: fcreate t seg

/-- Append a block of commands to a segment file (models flushing the
compaction-target BufWriter after the copy loop). -/
def fwrite : Disk → Nat → List Command → Disk
  | [], seg, cs => [(seg, cs)]
  | (i, f) :: t, seg, cs =>
      if i = seg then (i, f ++ cs) :: t else (i, f) :: fwrite t seg cs

/-- Total byte length of a segment file. -/
def fileLen (f : List Command) : Nat := (f.map encLen).sum

/-- Decode exactly one command starting at a byte offset of a segment
file, as serde_json Deserializer into_iter().next() does after a seek:
at a record boundary it yields that record, at or past end of file it
yields nothing (EOF), and strictly inside a record decoding fails. -/
def decodeAt : List Command → Nat → Except Unit (Option Command)
  | [], _ => .ok none
  | c :: cs, o =>
      if o = 0 then .ok (some c)
      else if o < encLen c then .error ()
      else decodeAt cs (o - encLen c)

instance {ε α : Type} [DecidableEq ε] [DecidableEq α] : DecidableEq (Except ε α) := fun x y =>
  match x, y with
  | .ok a, .ok b =>
      if h : a = b then .isTrue (by rw [h]) else .isFalse (fun he => by cases he; exact h rfl)
  | .error a, .error b =>
      if h : a = b then .isTrue (by rw [h]) else .isFalse (fun he => by cases he; exact h rfl)
  | .ok _, .error _ => .isFalse (fun he => by cases he)
  | .error _, .ok _ => .isFalse (fun he => by cases he)

/-- The in-memory store state, from struct KvStore in kv.rs (the PathBuf
and the raw file handles are represented by the Disk and Readers maps). -/
structure KvStore where
  offset : Nat
  segment : Nat
  uncompacted : Nat
  index : Index
  readers : Readers
  files : Disk
deriving DecidableEq, Repr

/-- Compaction threshold constant, COMPACTION_THRESHOLD in kv.rs. -/
def COMPACTION_THRESHOLD : Nat := 1024 * 1024

/-- Key affected by a command. -/
def cmdKey : Command → String
  | .set k _ => k
  | .remove k => k

/-- Length of the index entry displaced by a command (0 if none): the
amount added to uncompacted by apply and by load_segment. -/
def displaced (idx : Index) (c : Command) : Nat :=
  ((ilookup idx (cmdKey c)).map CommandPosition.len).getD 0

/-- Index update performed for one command scanned or applied at a given
segment and offset (shared by apply and load_segment in kv.rs). -/
def stepIndex (seg off : Nat) (idx : Index) (c : Command) : Index :=
  match c with
  | .set k _ => iinsert idx k ⟨seg, off, encLen c⟩
  | .remove k => ierase idx k

/-- State change of KvStore::apply before the compaction-threshold check:
encode, append to the active segment, flush, update index and
uncompacted, advance the offset. -/
def applyBase (s : KvStore) (c : Command) : KvStore :=
  { s with
    files := fappend s.files s.segment c
    index := stepIndex s.segment s.offset s.index c
    uncompacted := s.uncompacted + displaced s.index c
    offset := s.offset + encLen c }

/-- The copy loop of KvStore::compact: for every index entry, find the
source segment's reader (a missing reader is the
expect("segment reader not found") panic, modelled as none), read the
record at the recorded offset, copy it to the compaction target, and
rebuild the entry at the running target offset.  Returns the rewritten
index, the commands copied into the target, and the reader pool with
moved cursors. -/
def compactGo (files : Disk) (target : Nat) :
    Index → Nat → Readers → Option (Index × List Command × Readers)
  | [], _, readers => some ([], [], readers)
  | (k, pos) :: rest, runOff, readers =>
    match alookup readers pos.segment with
    | none => none
    | some _ =>
      match alookup files pos.segment with
      | none => none
      | some file =>
        match decodeAt file pos.offset with
        | .ok (some c) =>
          if encLen c = pos.len then
            match compactGo files target rest (runOff + pos.len)
                (rinsert readers pos.segment (pos.offset + pos.len)) with
            | none => none
            | some (idx, content, readersF) =>
              some ((k, ⟨target, runOff, pos.len⟩) :: idx, c :: content, readersF)
          else none
        | _ => none

/-- KvStore::compact: copy all live records into segment id+1, open a new
active segment id+2 and register its reader, then drop the readers of
segments below the compaction target and delete those files.  The
compaction target itself never receives a reader (exactly as in the
source).  Files without a pooled reader are not deleted. -/
def compact (s : KvStore) : Option KvStore :=
  let target := s.segment + 1
  let files0 := fcreate s.files target
  match compactGo files0 target s.index 0 s.readers with
  | none => none
  | some (idx, content, readers1) =>
    let files1 := fwrite files0 target content
    let active := s.segment + 2
    let files2 := fcreate files1 active
    let readers2 := rinsert readers1 active 0
    let staleIds := (readers2.map Prod.fst).filter (fun i => i < target)
    let readers3 := readers2.filter (fun p => ¬ p.1 < target)
    let files3 := staleIds.foldl (fun d i => d.filter (fun p => p.1 ≠ i)) files2
    some { offset := 0, segment := active, uncompacted := 0,
           index := idx, readers := readers3, files := files3 }

/-- KvStore::apply: the base step, then compaction when uncompacted
strictly exceeds the threshold. -/
def apply (s : KvStore) (c : Command) : Option KvStore :=
  let s' := applyBase s c
  if COMPACTION_THRESHOLD < s'.uncompacted then compact s' else some s'

/-- KvStore::set. -/
def setOp (s : KvStore) (k v : String) : Option KvStore :=
  apply s (.set k v)

/-- Error type of the engine visible to these claims (I/O and
serialization failures have no counterpart in the model, where the file
system is total). -/
inductive KvsError where
  | keyNotFound
deriving DecidableEq, Repr

/-- KvStore::remove: KeyNotFound (with the state unchanged) when the key
is absent from the index, otherwise apply a Remove command.  A none
result models a panic inside a triggered compaction. -/
def removeOp (s : KvStore) (k : String) : Option (Except KvsError Unit × KvStore) :=
  if (ilookup s.index k).isSome then
    (apply s (.remove k)).map (fun s' => (.ok (), s'))
  else some (.error .keyNotFound, s)

/-- read_value in kv.rs: look up the segment's reader (missing reader is
the defensive not-found case), seek to the offset, decode one command;
a Set yields its value, anything else (including EOF) yields none.
Returns the result together with the updated reader pool (cursors). -/
def readValue (readers : Readers) (files : Disk) (seg off : Nat) :
    Except Unit (Option String) × Readers :=
  match alookup readers seg with
  | none => (.ok none, readers)
  | some _ =>
    match alookup files seg with
    | none => (.ok none, readers)
    | some file =>
      match decodeAt file off with
      | .error _ => (.error (), rinsert readers seg off)
      | .ok none => (.ok none, rinsert readers seg off)
      | .ok (some c) =>
        let readers' := rinsert readers seg (off + encLen c)
        match c with
        | .set _ v => (.ok (some v), readers')
        | .remove _ => (.ok none, readers')

/-- KvStore::get: not-found when the key is absent from the index,
otherwise read the recorded position.  Only the reader pool (cursor
state) of the store can change. -/
def get (s : KvStore) (k : String) : Except Unit (Option String) × KvStore :=
  match ilookup s.index k with
  | none => (.ok none, s)
  | some pos =>
    let r := readValue s.readers s.files pos.segment pos.offset
    (r.1, { s with readers := r.2 })

/-- One step of the replay scan in load_segment: identical index and
uncompacted accounting as applyBase, at the scanned offset. -/
def loadGo (seg : Nat) : List Command → Nat → Index × Nat → Index × Nat
  | [], _, acc => acc
  | c :: cs, off, (idx, unc) =>
      loadGo seg cs (off + encLen c) (stepIndex seg off idx c, unc + displaced idx c)

/-- Replay of one segment file into the accumulated index/uncompacted
pair (load_segment in kv.rs, minus the reader registration). -/
def loadSegment (acc : Index × Nat) (p : Nat × List Command) : Index × Nat :=
  loadGo p.1 p.2 0 acc

/-- Replay of a whole disk, segment files in the order listed. -/
def loadAll (d : Disk) : Index × Nat :=
  d.foldl loadSegment ([], 0)

/-- One segment of the replay loop in KvStore::open: look up the file by
id, replay it into the index/uncompacted pair, and register its reader
with the cursor at end of file. -/
def openLoad (d : Disk) (acc : (Index × Nat) × Readers) (seg : Nat) :
    (Index × Nat) × Readers :=
  match alookup d seg with
  | none => acc
  | some file => (loadGo seg file 0 acc.1, rinsert acc.2 seg (fileLen file))

/-- KvStore::open: enumerate segment ids sorted ascending, replay each in
order (registering a reader per replayed segment, cursor at end of
file), then create the new active segment (highest id + 1, or 1 on an
empty directory) with a fresh reader. -/
def openStore (d : Disk) : KvStore :=
  let segs := List.insertionSort (· ≤ ·) (d.map Prod.fst)
  let start : (Index × Nat) × Readers := (([], 0), [])
  let iur := segs.foldl (openLoad d) start
  let segment := segs.getLast?.getD 0 + 1
  { offset := 0
    segment := segment
    uncompacted := iur.1.2
    index := iur.1.1
    readers := rinsert iur.2 segment 0
    files := fcreate d segment }

/-! Byte accounting used to state the uncompacted-counter claims. -/

/-- Records of a segment file with their start offsets, the first one at
the given base offset. -/
def recordsFrom (base : Nat) : List Command → List (Nat × Command)
  | [] => []
  | c :: cs => (base, c) :: recordsFrom (base + encLen c) cs

/-- All records on disk as (segment id, start offset, command). -/
def records (d : Disk) : List (Nat × Nat × Command) :=
  d.foldr (fun p acc => ((recordsFrom 0 p.2).map (fun r => (p.1, r.1, r.2))) ++ acc) []

/-- Whether some index entry references the record starting at the given
segment and offset (reachability from the Index, as the spec words it). -/
def referenced (idx : Index) (seg off : Nat) : Bool :=
  idx.any (fun p => p.2.segment = seg && p.2.offset = off)

/-- Total bytes of on-disk commands not referenced by any index entry:
the quantity the spec calls bytes no longer reachable from the Index
(this counts Remove commands too, which are never referenced). -/
def deadBytes (d : Disk) (idx : Index) : Nat :=
  ((records d).map (fun r => if referenced idx r.1 r.2.1 then 0 else encLen r.2.2)).sum

/-- Bytes of the Set commands of one segment file. -/
def setBytesF (f : List Command) : Nat :=
  (f.map (fun c =>
    match c with
    | .set _ _ => encLen c
    | .remove _ => 0)).sum

/-- Total bytes of on-disk Set commands. -/
def setBytes (d : Disk) : Nat :=
  (d.map (fun p => setBytesF p.2)).sum

/-- Keys bound by the index, in order. -/
def iKeys (idx : Index) : List String := idx.map Prod.fst

/-- Total bytes of the Set commands referenced by the index. -/
def liveBytes (idx : Index) : Nat :=
  (idx.map (fun p => p.2.len)).sum

/-- Whether a list of segment ids is strictly ascending. -/
def strictAscB : List Nat → Bool
  | [] => true
  | [_] => true
  | a :: b :: t => decide (a < b) && strictAscB (b :: t)

/-- Segment ids present on disk, in file order. -/
def fileIds (d : Disk) : List Nat := d.map Prod.fst

/-- The active segment is the last (highest) file on disk and the running
offset equals its current length. -/
def activeOkB (s : KvStore) : Bool :=
  match s.files.getLast? with
  | some p => decide (p.1 = s.segment) && decide (s.offset = fileLen p.2)
  | none => false

/-- Well-formedness of a store state (decidable): segment files strictly
ascending by id, active segment aligned with the running offset, and the
in-memory index and uncompacted counter equal to what a replay of the
current disk recomputes. -/
def InvB (s : KvStore) : Bool :=
  strictAscB (fileIds s.files) && activeOkB s &&
  decide (s.index = (loadAll s.files).1) &&
  decide (s.uncompacted = (loadAll s.files).2)

/-- Every index entry references an actual Set record of its own key,
with the recorded encoded length, at the recorded segment and offset. -/
def Pointing (s : KvStore) : Prop :=
  ∀ k p, ilookup s.index k = some p →
    ∃ file v, alookup s.files p.segment = some file ∧
      decodeAt file p.offset = .ok (some (.set k v)) ∧
      p.len = encLen (Command.set k v)

/-- Full inductive invariant for the write path. -/
def Good (s : KvStore) : Prop := InvB s = true ∧ Pointing s

/-! Segment-file enumeration (sorted_segments in kv.rs), modelled on the
list of regular-file names of the directory. -/

/-- Characters after the last dot of the list, if any. -/
def afterLastDot : List Char → Option (List Char)
  | [] => none
  | c :: cs =>
    match afterLastDot cs with
    | some e => some e
    | none => if c = '.' then some cs else none

/-- Rust Path::extension on a file name: the portion after the final dot,
where a dot in leading position does not count (no extension for names
like .log), and none when there is no such dot. -/
def extension (name : String) : Option String :=
  match name.toList with
  | [] => none
  | _ :: rest => (afterLastDot rest).map (fun e => String.mk e)

/-- Strip every trailing occurrence of .log, working on the reversed
character list. -/
def stripLogRev : List Char → List Char
  | 'g' :: 'o' :: 'l' :: '.' :: rest => stripLogRev rest
  | cs => cs

/-- Rust str::trim_end_matches applied to the suffix .log: removes all
trailing repetitions. -/
def trimEndLog (s : String) : String :=
  String.mk (stripLogRev s.toList.reverse).reverse

/-- Numeric value of a digit string. -/
def digitsVal (cs : List Char) : Nat :=
  cs.foldl (fun a c => a * 10 + (c.toNat - 48)) 0

/-- Digit-run parser shared by parseU64: one or more decimal digits,
rejecting values of 2^64 or more. -/
def parseDigits (cs : List Char) : Option Nat :=
  if cs = [] then none
  else if cs.all Char.isDigit then
    if digitsVal cs < 18446744073709551616 then some (digitsVal cs) else none
  else none

/-- Rust str::parse into u64: one optional leading plus sign, then one or
more decimal digits, rejecting values of 2^64 or more. -/
def parseU64 (s : String) : Option Nat :=
  match s.toList with
  | '+' :: rest => parseDigits rest
  | cs => parseDigits cs

/-- sorted_segments in kv.rs: keep names whose extension is log, parse
each after stripping trailing .log repetitions, silently drop parse
failures, and sort ascending.  The input is the list of regular-file
names found in the directory. -/
def sorted_segments (files : List String) : List Nat :=
  List.insertionSort (· ≤ ·)
    ((files.filter (fun f => extension f = some "log")).filterMap
      (fun f => parseU64 (trimEndLog f)))

/-- Modelled from the spec (section 6, persisted layout): a name matches
the segment naming convention exactly when it is a nonempty string of
decimal digits followed by one .log suffix, with the id below 2^64; the
matching id, if any. -/
def specCanonicalId (name : String) : Option Nat :=
  match name.toList.reverse with
  | 'g' :: 'o' :: 'l' :: '.' :: revStem =>
    if revStem.reverse ≠ [] ∧ revStem.reverse.all Char.isDigit ∧
        digitsVal revStem.reverse < 18446744073709551616 then
      some (digitsVal revStem.reverse)
    else none
  | _ => none

/-! Claim theorems. -/

/-- C1: the claim says compaction must not change the result of any
subsequent get or remove.  The code violates it: after set("a","1") a
direct compaction flips get("a") from ok (some "1") to ok none, because
compact never registers a reader for the compaction-target segment, so
the rewritten index entries hit the defensive missing-reader branch of
read_value. -/
theorem compaction_changes_get :
    ((setOp (openStore []) "a" "1").map (fun s => (get s "a").1) = some (.ok (some "1")))
    ∧ (((setOp (openStore []) "a" "1").bind compact).map (fun s => (get s "a").1)
        = some (.ok none)) := by decide

/-- C3: the claim says the compaction post-condition holds after every
compaction, including a second one.  The code violates it: after
set("a","1") and a first compaction, the index entry points into the
compaction target, which has no pooled reader, so a second compaction
panics at expect("segment reader not found") (modelled as none). -/
theorem second_compaction_panics :
    ((setOp (openStore []) "a" "1").bind compact).bind compact = none := by decide

/-- C4: the claim says reopening the directory yields the same get
results the previous instance produced before being dropped.  The code
violates it: after set("a","1") and a compaction the live instance
returns ok none for get("a") (missing compaction-target reader), while
the reopened instance replays the log and returns ok (some "1"). -/
theorem reopen_differs_from_live_instance :
    (((setOp (openStore []) "a" "1").bind compact).map
      (fun s => ((get s "a").1, (get (openStore s.files) "a").1)))
      = some (.ok none, .ok (some "1")) := by decide

/-- C6 counterexample: after set("a","1") then remove("a") the
uncompacted counter is 31 (only the dead Set command is counted) while
the bytes no longer reachable from the index are 53 (the Set and the
Remove command, 31 + 22): the claimed equality is false.  Moreover, even
counting dead Set bytes only, a second compaction (here with an empty
index) leaks the previous compaction target on disk, leaving 31 dead Set
bytes while the counter was reset to 0. -/
theorem uncompacted_undercounts :
    (((setOp (openStore []) "a" "1").bind (fun s1 =>
        (removeOp s1 "a").map (fun r => (r.2.uncompacted, deadBytes r.2.files r.2.index))))
      = some (31, 53))
    ∧ ((((((setOp (openStore []) "a" "1").bind compact).bind
        (fun s => (removeOp s "a").map Prod.snd)).bind compact).map
      (fun s => (s.uncompacted, deadBytes s.files s.index)))
      = some (0, 31)) := by decide

/-- C9 counterexample: the file name 1.log.log does not match the
naming convention (its stem 1.log is not an unsigned decimal integer),
yet sorted_segments returns the spurious id 1 for it instead of
ignoring it, because trim_end_matches strips every trailing .log. -/
theorem sorted_segments_spurious_id :
    sorted_segments ["1.log.log"] = [1] ∧ specCanonicalId "1.log.log" = none := by decide

/-- C7: get on a key absent from the index returns ok none (not an
error) with the store untouched, and get on a key whose index entry
names a segment without a pooled reader also returns ok none instead of
failing. -/
theorem get_not_found_cases (s : KvStore) (k : String) :
    (ilookup s.index k = none → get s k = (.ok none, s))
    ∧ (∀ p, ilookup s.index k = some p → alookup s.readers p.segment = none →
        (get s k).1 = .ok none) := by
  constructor
  · intro h
    simp [get, h]
  · intro p hp hr
    simp [get, hp, readValue, hr]

/-- Witness for C7 at concrete inputs: a fresh store with an absent key,
and a post-compaction-shaped state whose only index entry names segment
2 while only segment 3 has a reader. -/
theorem get_not_found_cases_witness :
    get (openStore []) "z" = (.ok none, openStore [])
    ∧ (get { offset := 0, segment := 3, uncompacted := 0,
             index := [("a", ⟨2, 0, 31⟩)], readers := [(3, 0)],
             files := [(2, [Command.set "a" "1"]), (3, [])] } "a").1 = .ok none :=
  ⟨(get_not_found_cases (openStore []) "z").1 (by decide),
   (get_not_found_cases
      { offset := 0, segment := 3, uncompacted := 0,
        index := [("a", ⟨2, 0, 31⟩)], readers := [(3, 0)],
        files := [(2, [Command.set "a" "1"]), (3, [])] } "a").2 ⟨2, 0, 31⟩
      (by decide) (by decide)⟩

/-- C10: get leaves the index, active-segment id, running offset,
uncompacted counter and on-disk files unchanged; only the reader pool
(cursor state) may differ. -/
theorem get_preserves_state (s : KvStore) (k : String) :
    (get s k).2.index = s.index ∧ (get s k).2.segment = s.segment
    ∧ (get s k).2.offset = s.offset ∧ (get s k).2.uncompacted = s.uncompacted
    ∧ (get s k).2.files = s.files := by
  unfold get
  cases ilookup s.index k <;> simp

/-! A value large enough that overwriting or removing it once pushes the
uncompacted counter over the 1 MiB threshold: its Set command encodes to
1048579 bytes.  The step lemmas are stated over any string of this
length so that the huge literal never has to be evaluated. -/

/-- One-megabyte-plus value used to force threshold compaction. -/
def vbig : String := String.mk (List.replicate 1048549 'a')

lemma vbig_length : vbig.length = 1048549 := by
  rw [vbig, String.length_mk, List.length_replicate]

lemma encLen_set_k (v : String) (hv : v.length = 1048549) :
    encLen (.set "k" v) = 1048579 := by
  have h1 : ("k" : String).length = 1 := rfl
  rw [encLen, hv, h1]

lemma encLen_set_b (v : String) (hv : v.length = 1048549) :
    encLen (.set "b" v) = 1048579 := by
  have h1 : ("b" : String).length = 1 := rfl
  rw [encLen, hv, h1]

lemma encLen_set_ky : encLen (.set "k" "y") = 31 := rfl

lemma c2_step1 (v : String) (hv : v.length = 1048549) :
    setOp (openStore []) "k" v
      = some ⟨1048579, 1, 0, [("k", ⟨1, 0, 1048579⟩)], [(1, 0)], [(1, [.set "k" v])]⟩ := by
  have h0 : openStore [] = ⟨0, 1, 0, [], [(1, 0)], [(1, [])]⟩ := by decide
  rw [setOp, apply, h0]
  simp [applyBase, fappend, stepIndex, iinsert, displaced, ilookup, cmdKey,
    encLen_set_k v hv, COMPACTION_THRESHOLD]

lemma c2_step2 (v : String) :
    setOp (⟨1048579, 1, 0, [("k", ⟨1, 0, 1048579⟩)], [(1, 0)],
        [(1, [.set "k" v])]⟩ : KvStore) "k" "y"
      = compact ⟨1048610, 1, 1048579, [("k", ⟨1, 1048579, 31⟩)], [(1, 0)],
          [(1, [.set "k" v, .set "k" "y"])]⟩ := by
  rw [setOp, apply]
  simp [applyBase, fappend, stepIndex, iinsert, displaced, ilookup, cmdKey,
    encLen_set_ky, COMPACTION_THRESHOLD]

lemma c2_step3 (v : String) (hv : v.length = 1048549) :
    compact ⟨1048610, 1, 1048579, [("k", ⟨1, 1048579, 31⟩)], [(1, 0)],
        [(1, [.set "k" v, .set "k" "y"])]⟩
      = some ⟨0, 3, 0, [("k", ⟨2, 0, 31⟩)], [(3, 0)], [(2, [.set "k" "y"]), (3, [])]⟩ := by
  rw [compact]
  simp [fcreate, compactGo, alookup, decodeAt, encLen_set_k v hv, encLen_set_ky,
    rinsert, fwrite]

/-- C2: the claim says get returns the most recent Set value for all
set/remove sequences on a fresh store.  The code violates it: the
sequence set("k", vbig); set("k", "y") drives the uncompacted counter to
1048579 (past the 1 MiB threshold), the second set triggers compaction,
and because compact never registers a reader for its target segment the
subsequent get("k") returns ok none instead of the most recent value
"y". -/
theorem threshold_compaction_loses_reads :
    ((setOp (openStore []) "k" vbig).bind (fun s => setOp s "k" "y")).map
      (fun s => (get s "k").1) = some (.ok none) := by
  rw [c2_step1 vbig vbig_length, Option.some_bind, c2_step2 vbig,
    c2_step3 vbig vbig_length]
  decide

lemma c5_opening :
    (setOp (openStore []) "a" "1").bind compact
      = some ⟨0, 3, 0, [("a", ⟨2, 0, 31⟩)], [(3, 0)], [(2, [.set "a" "1"]), (3, [])]⟩ := by
  decide

lemma c5_fill (v : String) (hv : v.length = 1048549) :
    setOp (⟨0, 3, 0, [("a", ⟨2, 0, 31⟩)], [(3, 0)],
        [(2, [.set "a" "1"]), (3, [])]⟩ : KvStore) "b" v
      = some ⟨1048579, 3, 0, [("a", ⟨2, 0, 31⟩), ("b", ⟨3, 0, 1048579⟩)], [(3, 0)],
          [(2, [.set "a" "1"]), (3, [.set "b" v])]⟩ := by
  rw [setOp, apply]
  simp [applyBase, fappend, stepIndex, iinsert, displaced, ilookup, cmdKey,
    encLen_set_b v hv, COMPACTION_THRESHOLD]

lemma c5_remove_panics (v : String) :
    removeOp (⟨1048579, 3, 0, [("a", ⟨2, 0, 31⟩), ("b", ⟨3, 0, 1048579⟩)], [(3, 0)],
        [(2, [.set "a" "1"]), (3, [.set "b" v])]⟩ : KvStore) "b" = none := by
  rw [removeOp]
  simp [ilookup, apply, applyBase, fappend, stepIndex, ierase, displaced, cmdKey,
    encLen, COMPACTION_THRESHOLD, compact, fcreate, compactGo, alookup]

/-- C5 counterexample: after set("a","1"); compact; set("b", vbig), the
key b is present in the index, yet remove("b") does not succeed: the
displaced 1048579-byte Set pushes uncompacted past the threshold, the
triggered compaction looks up a reader for segment 2 (the old
compaction target, which never got one) and panics; this is neither an
I/O nor a serialization failure, so the second half of the claim is
false. -/
theorem remove_present_key_panics :
    ((((setOp (openStore []) "a" "1").bind compact).bind (fun s => setOp s "b" vbig)).map
      (fun s => ((ilookup s.index "b").isSome, removeOp s "b")))
      = some (true, none) := by
  rw [c5_opening, Option.some_bind, c5_fill vbig vbig_length, Option.map_some',
    c5_remove_panics vbig]
  decide

/-- C5 amended: remove on an absent key fails with KeyNotFound and
leaves the state (index, offset, uncompacted counter, disk) unchanged,
writing nothing; remove on a present key succeeds and equals the base
apply of the Remove command, provided the write does not push the
uncompacted counter over the compaction threshold (otherwise the
triggered compaction may panic on a missing pooled reader, see the
counterexample). -/
theorem remove_semantics (s : KvStore) (k : String) :
    (ilookup s.index k = none → removeOp s k = some (.error .keyNotFound, s))
    ∧ ((ilookup s.index k).isSome = true →
        (applyBase s (.remove k)).uncompacted ≤ COMPACTION_THRESHOLD →
        removeOp s k = some (.ok (), applyBase s (.remove k))) := by
  constructor
  · intro h
    simp [removeOp, h]
  · intro h hle
    simp [removeOp, h, apply, Nat.not_lt.mpr hle]

/-- Witness for C5 at concrete inputs: a fresh store rejects removing an
absent key unchanged, and removing a just-set key succeeds. -/
theorem remove_semantics_witness :
    removeOp (openStore []) "z" = some (.error .keyNotFound, openStore [])
    ∧ removeOp (applyBase (openStore []) (.set "a" "1")) "a"
        = some (.ok (), applyBase (applyBase (openStore []) (.set "a" "1")) (.remove "a")) :=
  ⟨(remove_semantics (openStore []) "z").1 (by decide),
   (remove_semantics (applyBase (openStore []) (.set "a" "1")) "a").2 (by decide) (by decide)⟩


lemma sorted_getLast_ge (l : List Nat) (h : List.Sorted (· ≤ ·) l) :
    ∀ x ∈ l, x ≤ l.getLast?.getD 0 := by
  induction l with
  | nil => simp
  | cons a t ih =>
    intro x hx
    cases t with
    | nil =>
      simp at hx
      subst hx
      simp
    | cons b t' =>
      rw [List.sorted_cons] at h
      rw [List.getLast?_cons_cons]
      rcases List.mem_cons.mp hx with rfl | hx'
      · have hab : x ≤ b := h.1 b (List.mem_cons_self _ _)
        have hb := ih h.2 b (List.mem_cons_self _ _)
        omega
      · exact ih h.2 x hx'

lemma getLast_getD_mem (l : List Nat) (h : l ≠ []) : l.getLast?.getD 0 ∈ l := by
  induction l with
  | nil => exact absurd rfl h
  | cons a t ih =>
    cases t with
    | nil => simp
    | cons b t' =>
      rw [List.getLast?_cons_cons]
      exact List.mem_cons_of_mem a (ih (by simp))

lemma openStore_segment (d : Disk) :
    (openStore d).segment
      = (List.insertionSort (· ≤ ·) (d.map Prod.fst)).getLast?.getD 0 + 1 := rfl

lemma openStore_segment_gt (d : Disk) : ∀ i ∈ fileIds d, i < (openStore d).segment := by
  intro i hi
  rw [openStore_segment]
  have hperm := List.perm_insertionSort (· ≤ ·) (d.map Prod.fst)
  have hmem : i ∈ List.insertionSort (· ≤ ·) (d.map Prod.fst) := hperm.mem_iff.mpr hi
  have := sorted_getLast_ge _ (List.sorted_insertionSort _ _) i hmem
  omega

lemma openStore_segment_succ (d : Disk) (h : d ≠ []) :
    ∃ i ∈ fileIds d, (openStore d).segment = i + 1 := by
  have hperm := List.perm_insertionSort (· ≤ ·) (d.map Prod.fst)
  have hne : List.insertionSort (· ≤ ·) (d.map Prod.fst) ≠ [] := by
    intro he
    rw [he] at hperm
    exact h (List.map_eq_nil_iff.mp hperm.symm.eq_nil)
  refine ⟨(List.insertionSort (· ≤ ·) (d.map Prod.fst)).getLast?.getD 0, ?_, rfl⟩
  exact hperm.mem_iff.mp (getLast_getD_mem _ hne)

lemma alookup_fcreate_self (d : Disk) (i : Nat) : (alookup (fcreate d i) i).isSome = true := by
  induction d with
  | nil => simp [fcreate, alookup]
  | cons p t ih =>
    obtain ⟨a, f⟩ := p
    by_cases h : a = i
    · simp [fcreate, h, alookup]
    · simp [fcreate, h, alookup, ih]

lemma alookup_fwrite_self (d : Disk) (i : Nat) (cs : List Command) :
    (alookup (fwrite d i cs) i).isSome = true := by
  induction d with
  | nil => simp [fwrite, alookup]
  | cons p t ih =>
    obtain ⟨a, f⟩ := p
    by_cases h : a = i
    · simp [fwrite, h, alookup]
    · simp [fwrite, h, alookup, ih]

lemma alookup_fcreate_ne (d : Disk) (i j : Nat) (h : j ≠ i) :
    alookup (fcreate d i) j = alookup d j := by
  induction d with
  | nil => simp [fcreate, alookup, Ne.symm h]
  | cons p t ih =>
    obtain ⟨a, f⟩ := p
    by_cases ha : a = i
    · simp [fcreate, ha, alookup]
    · by_cases hj : a = j
      · simp [fcreate, ha, alookup, hj, h]
      · simp [fcreate, ha, alookup, hj, ih]

lemma alookup_filter_ne (d : Disk) (i j : Nat) (h : j ≠ i) :
    alookup (d.filter (fun p => p.1 ≠ i)) j = alookup d j := by
  induction d with
  | nil => rfl
  | cons p t ih =>
    obtain ⟨a, f⟩ := p
    rw [List.filter_cons]
    by_cases ha : a = i
    · subst ha
      have hj : ¬ (a = j) := fun he => h he.symm
      simp only [decide_not] at ih
      simp [alookup, hj, ih]
    · simp only [decide_not] at ih
      by_cases hj : a = j
      · subst hj
        simp [alookup, ha]
      · simp [alookup, ha, hj, ih]

lemma foldl_filter_alookup (ids : List Nat) (d : Disk) (j : Nat) (h : ∀ i ∈ ids, j ≠ i) :
    alookup (ids.foldl (fun d i => d.filter (fun p => p.1 ≠ i)) d) j = alookup d j := by
  induction ids generalizing d with
  | nil => rfl
  | cons i t ih =>
    rw [List.foldl_cons, ih _ (fun x hx => h x (List.mem_cons_of_mem i hx)),
      alookup_filter_ne d i j (h i (List.mem_cons_self _ _))]

lemma compact_structure (s s' : KvStore) (h : compact s = some s') :
    s'.segment = s.segment + 2
    ∧ (alookup s'.files (s.segment + 1)).isSome = true
    ∧ (alookup s'.files (s.segment + 2)).isSome = true := by
  rw [compact] at h
  split at h
  · exact absurd h (by simp)
  · rename_i idx content readers1 hgo
    rw [Option.some_inj] at h
    subst h
    refine ⟨rfl, ?_, ?_⟩
    · have hstale : ∀ i ∈ (((rinsert readers1 (s.segment + 2) 0).map Prod.fst).filter
          (fun i => i < s.segment + 1)), s.segment + 1 ≠ i := by
        intro i hi
        have := List.of_mem_filter hi
        have hlt : i < s.segment + 1 := of_decide_eq_true this
        omega
      rw [foldl_filter_alookup _ _ _ hstale,
        alookup_fcreate_ne _ _ _ (by omega)]
      exact alookup_fwrite_self _ _ _
    · have hstale : ∀ i ∈ (((rinsert readers1 (s.segment + 2) 0).map Prod.fst).filter
          (fun i => i < s.segment + 1)), s.segment + 2 ≠ i := by
        intro i hi
        have := List.of_mem_filter hi
        have hlt : i < s.segment + 1 := of_decide_eq_true this
        omega
      rw [foldl_filter_alookup _ _ _ hstale]
      exact alookup_fcreate_self _ _

/-- C8: open on an empty directory creates active segment 1 (with its
file); open on an existing directory allocates highest existing id plus
one (strictly above every existing id, and the successor of one of
them); a successful compaction allocates the compaction target at
current active plus one and the new active at target plus one, creating
both files, and neither new id can collide with an existing id below or
at the pre-compaction active id, so ids are never reused. -/
theorem segment_id_allocation :
    ((openStore []).segment = 1 ∧ (alookup (openStore []).files 1).isSome = true)
    ∧ (∀ d : Disk, (∀ i ∈ fileIds d, i < (openStore d).segment)
        ∧ (d ≠ [] → ∃ i ∈ fileIds d, (openStore d).segment = i + 1))
    ∧ (∀ s s' : KvStore, compact s = some s' →
        s'.segment = s.segment + 2
        ∧ (alookup s'.files (s.segment + 1)).isSome = true
        ∧ (alookup s'.files (s.segment + 2)).isSome = true
        ∧ (∀ i ∈ fileIds s.files, i ≤ s.segment → s.segment + 1 ≠ i ∧ s.segment + 2 ≠ i)) := by
  refine ⟨⟨rfl, rfl⟩, fun d => ⟨openStore_segment_gt d, openStore_segment_succ d⟩,
    fun s s' h => ?_⟩
  obtain ⟨h1, h2, h3⟩ := compact_structure s s' h
  exact ⟨h1, h2, h3, fun i _ hle => ⟨by omega, by omega⟩⟩

/-- Witness for C8: the open parts at the one-file disk with id 5 (the
next active segment is 6), and the compaction part at a concrete
post-set store whose compaction succeeds. -/
theorem segment_id_allocation_witness :
    (∀ i ∈ fileIds [(5, ([] : List Command))], i < (openStore [(5, [])]).segment)
    ∧ (∃ i ∈ fileIds [(5, ([] : List Command))], (openStore [(5, [])]).segment = i + 1)
    ∧ ((⟨0, 3, 0, [("a", ⟨2, 0, 31⟩)], [(3, 0)],
          [(2, [Command.set "a" "1"]), (3, [])]⟩ : KvStore).segment
        = (⟨31, 1, 0, [("a", ⟨1, 0, 31⟩)], [(1, 0)],
            [(1, [Command.set "a" "1"])]⟩ : KvStore).segment + 2) :=
  ⟨(segment_id_allocation.2.1 [(5, [])]).1,
   (segment_id_allocation.2.1 [(5, [])]).2 (by decide),
   (segment_id_allocation.2.2
      ⟨31, 1, 0, [("a", ⟨1, 0, 31⟩)], [(1, 0)], [(1, [Command.set "a" "1"])]⟩
      ⟨0, 3, 0, [("a", ⟨2, 0, 31⟩)], [(3, 0)], [(2, [Command.set "a" "1"]), (3, [])]⟩
      (by decide)).1⟩


lemma afterLastDot_append (xs ys : List Char) (h : afterLastDot ys = none) :
    afterLastDot (xs ++ '.' :: ys) = some ys := by
  induction xs with
  | nil => simp [afterLastDot, h]
  | cons x xs ih => simp [afterLastDot, ih]

lemma stripLogRev_digits (l : List Char) (h : ∀ c ∈ l, c.isDigit = true) :
    stripLogRev l = l := by
  rw [stripLogRev.eq_def]
  split
  · rename_i rest
    exact absurd (h 'g' (by simp)) (by decide)
  · rfl

lemma specCanonicalId_elim (f : String) (n : Nat) (h : specCanonicalId f = some n) :
    ∃ revStem, f.toList.reverse = 'g' :: 'o' :: 'l' :: '.' :: revStem
      ∧ revStem.reverse ≠ []
      ∧ (∀ c ∈ revStem.reverse, c.isDigit = true)
      ∧ digitsVal revStem.reverse < 18446744073709551616
      ∧ n = digitsVal revStem.reverse := by
  rw [specCanonicalId.eq_def] at h
  split at h
  · rename_i revStem heq
    split at h
    · rename_i hcond
      obtain ⟨h1, h2, h3⟩ := hcond
      refine ⟨revStem, heq, h1, ?_, h3, (Option.some_inj.mp h).symm⟩
      exact fun c hc => List.all_eq_true.mp h2 c hc
    · exact absurd h (by simp)
  · exact absurd h (by simp)

lemma spec_extension (f : String) (n : Nat) (h : specCanonicalId f = some n) :
    extension f = some "log" := by
  obtain ⟨revStem, heq, hne, hdig, _, _⟩ := specCanonicalId_elim f n h
  have hl : f.toList = revStem.reverse ++ ['.', 'l', 'o', 'g'] := by
    have h2 := congrArg List.reverse heq
    simpa using h2
  obtain ⟨c, stem', hstem⟩ := List.exists_cons_of_ne_nil hne
  have h2 : f.toList = c :: (stem' ++ ['.', 'l', 'o', 'g']) := by
    rw [hl, hstem]
    rfl
  rw [extension.eq_def, h2]
  show (afterLastDot (stem' ++ '.' :: ['l', 'o', 'g'])).map (fun e => String.mk e)
      = some "log"
  rw [afterLastDot_append stem' ['l', 'o', 'g'] (by decide)]
  rfl

lemma char_digit_ne_plus (c : Char) (h : c.isDigit = true) : c ≠ '+' := by
  intro he
  subst he
  exact absurd h (by decide)

lemma spec_parse (f : String) (n : Nat) (h : specCanonicalId f = some n) :
    parseU64 (trimEndLog f) = some n := by
  obtain ⟨revStem, heq, hne, hdig, hlt, hn⟩ := specCanonicalId_elim f n h
  have hdig' : ∀ c ∈ revStem, c.isDigit = true :=
    fun c hc => hdig c (List.mem_reverse.mpr hc)
  have hstrip : stripLogRev f.toList.reverse = revStem := by
    rw [heq]
    show stripLogRev revStem = revStem
    exact stripLogRev_digits revStem hdig'
  have htrim : trimEndLog f = String.mk revStem.reverse := by
    rw [trimEndLog, hstrip]
  rw [htrim]
  obtain ⟨c, stem', hstem⟩ := List.exists_cons_of_ne_nil hne
  have hc : c.isDigit = true := hdig c (by rw [hstem]; exact List.mem_cons_self _ _)
  rw [parseU64.eq_def]
  have htl : (String.mk revStem.reverse).toList = c :: stem' := by
    show revStem.reverse = c :: stem'
    exact hstem
  rw [htl]
  split
  · rename_i rest hplus
    have : c = '+' := (List.cons.injEq _ _ _ _ ▸ hplus).1
    exact absurd this (char_digit_ne_plus c hc)
  · rw [parseDigits]
    have hall : (c :: stem').all Char.isDigit = true := by
      apply List.all_eq_true.mpr
      intro x hx
      exact hdig x (by rw [hstem]; exact hx)
    rw [hstem] at hlt hn
    simp [hall, hlt, hn]

lemma segments_chain_eq (files : List String)
    (h : ∀ f ∈ files, (specCanonicalId f).isSome = true ∨ extension f ≠ some "log") :
    (files.filter (fun f => extension f = some "log")).filterMap
        (fun f => parseU64 (trimEndLog f))
      = files.filterMap specCanonicalId := by
  induction files with
  | nil => rfl
  | cons f t ih =>
    have ht := fun g hg => h g (List.mem_cons_of_mem f hg)
    rw [List.filter_cons, List.filterMap_cons]
    rcases h f (List.mem_cons_self f t) with hcan | hext
    · obtain ⟨n, hn⟩ := Option.isSome_iff_exists.mp hcan
      have he := spec_extension f n hn
      have hp := spec_parse f n hn
      simp [he, hn, List.filterMap_cons, hp, ih ht]
    · have hnone : specCanonicalId f = none := by
        cases hs : specCanonicalId f with
        | none => rfl
        | some m => exact absurd (spec_extension f m hs) hext
      simp [hext, hnone, ih ht]

/-- C9 amended: sorted_segments always returns an ascending list; and
for every directory listing in which each file either matches the
canonical naming convention (digits followed by one .log, value below
2^64) or does not have the log extension at all, the result is exactly
the ids of the canonically named files, sorted ascending, with all other
names silently ignored.  (The restriction is forced: names such as
1.log.log or +1.log have the log extension without matching the
convention, yet contribute an id, see the counterexample.) -/
theorem sorted_segments_canonical (files : List String)
    (h : ∀ f ∈ files, (specCanonicalId f).isSome = true ∨ extension f ≠ some "log") :
    List.Sorted (· ≤ ·) (sorted_segments files)
    ∧ (sorted_segments files).Perm (files.filterMap specCanonicalId) := by
  constructor
  · exact List.sorted_insertionSort _ _
  · unfold sorted_segments
    rw [segments_chain_eq files h]
    exact List.perm_insertionSort _ _

/-- Witness for C9 at a concrete directory listing with three canonical
names and one ignored non-log name. -/
theorem sorted_segments_canonical_witness :
    List.Sorted (· ≤ ·) (sorted_segments ["2.log", "10.log", "junk.txt", "1.log"])
    ∧ (sorted_segments ["2.log", "10.log", "junk.txt", "1.log"]).Perm
        (["2.log", "10.log", "junk.txt", "1.log"].filterMap specCanonicalId) :=
  sorted_segments_canonical ["2.log", "10.log", "junk.txt", "1.log"] (by decide)


def dlen (idx : Index) (k : String) : Nat :=
  ((ilookup idx k).map CommandPosition.len).getD 0

lemma displaced_eq_dlen (idx : Index) (c : Command) :
    displaced idx c = dlen idx (cmdKey c) := rfl

lemma liveBytes_iinsert (idx : Index) (k : String) (p : CommandPosition) :
    liveBytes (iinsert idx k p) + dlen idx k = liveBytes idx + p.len := by
  induction idx with
  | nil => simp [iinsert, liveBytes, dlen, ilookup]
  | cons q t ih =>
    obtain ⟨k', p'⟩ := q
    by_cases h : k' = k
    · simp only [iinsert, if_pos h, liveBytes, List.map_cons, List.sum_cons,
        dlen, ilookup, Option.map_some', Option.getD_some]
      omega
    · simp only [iinsert, if_neg h, liveBytes, List.map_cons, List.sum_cons,
        dlen, ilookup] at ih ⊢
      omega

lemma ierase_cons_eq (t : Index) (k : String) (p' : CommandPosition) :
    ierase ((k, p') :: t) k = ierase t k := by
  simp [ierase, List.filter_cons]

lemma ierase_cons_ne (t : Index) (k k' : String) (p' : CommandPosition) (hk : k' ≠ k) :
    ierase ((k', p') :: t) k = (k', p') :: ierase t k := by
  simp [ierase, List.filter_cons, hk]

lemma liveBytes_cons (t : Index) (k' : String) (p' : CommandPosition) :
    liveBytes ((k', p') :: t) = p'.len + liveBytes t := by
  simp [liveBytes]

lemma dlen_cons_eq (t : Index) (k : String) (p' : CommandPosition) :
    dlen ((k, p') :: t) k = p'.len := by
  simp [dlen, ilookup]

lemma dlen_cons_ne (t : Index) (k k' : String) (p' : CommandPosition) (hk : k' ≠ k) :
    dlen ((k', p') :: t) k = dlen t k := by
  simp [dlen, ilookup, hk]

lemma ierase_not_mem (idx : Index) (k : String) (h : ¬ k ∈ iKeys idx) :
    ierase idx k = idx := by
  induction idx with
  | nil => rfl
  | cons q t ih =>
    obtain ⟨k', p'⟩ := q
    simp only [iKeys, List.map_cons, List.mem_cons] at h
    push_neg at h
    rw [ierase_cons_ne t k k' p' (fun he => h.1 he.symm),
      ih (by simpa [iKeys] using h.2)]

lemma liveBytes_ierase (idx : Index) (k : String) (h : (iKeys idx).Nodup) :
    liveBytes (ierase idx k) + dlen idx k = liveBytes idx := by
  induction idx with
  | nil => simp [ierase, liveBytes, dlen, ilookup]
  | cons q t ih =>
    obtain ⟨k', p'⟩ := q
    rw [iKeys, List.map_cons, List.nodup_cons] at h
    by_cases hk : k' = k
    · subst hk
      rw [ierase_cons_eq, dlen_cons_eq, liveBytes_cons,
        ierase_not_mem t k' (by simpa [iKeys] using h.1)]
      omega
    · rw [ierase_cons_ne t k k' p' hk, dlen_cons_ne t k k' p' hk,
        liveBytes_cons, liveBytes_cons]
      have := ih h.2
      omega

lemma mem_iKeys_iinsert (idx : Index) (k x : String) (p : CommandPosition) :
    x ∈ iKeys (iinsert idx k p) ↔ x ∈ iKeys idx ∨ x = k := by
  induction idx with
  | nil => simp [iinsert, iKeys]
  | cons q t ih =>
    obtain ⟨k', p'⟩ := q
    by_cases h : k' = k
    · subst h
      simp [iinsert, iKeys, List.mem_cons]
      tauto
    · simp only [iinsert, if_neg h, iKeys, List.map_cons, List.mem_cons] at ih ⊢
      rw [ih]
      tauto

lemma nodup_iinsert (idx : Index) (k : String) (p : CommandPosition)
    (h : (iKeys idx).Nodup) : (iKeys (iinsert idx k p)).Nodup := by
  induction idx with
  | nil => simp [iinsert, iKeys]
  | cons q t ih =>
    obtain ⟨k', p'⟩ := q
    rw [iKeys, List.map_cons, List.nodup_cons] at h
    by_cases hk : k' = k
    · subst hk
      rw [iinsert, if_pos rfl, iKeys, List.map_cons, List.nodup_cons]
      exact ⟨by simpa [iKeys] using h.1, by simpa [iKeys] using h.2⟩
    · rw [iinsert, if_neg hk, iKeys, List.map_cons, List.nodup_cons]
      refine ⟨?_, by simpa [iKeys] using ih h.2⟩
      intro hmem
      rcases (mem_iKeys_iinsert t k k' p).mp (by simpa [iKeys] using hmem) with h1 | h1
      · exact h.1 (by simpa [iKeys] using h1)
      · exact hk h1

lemma iKeys_ierase (idx : Index) (k : String) :
    iKeys (ierase idx k) = (iKeys idx).filter (fun x => x ≠ k) := by
  induction idx with
  | nil => rfl
  | cons q t ih =>
    obtain ⟨k', p'⟩ := q
    simp only [decide_not] at ih
    by_cases hk : k' = k
    · subst hk
      rw [ierase_cons_eq]
      show iKeys (ierase t k') = _
      rw [ih]
      simp [iKeys, List.filter_cons]
    · rw [ierase_cons_ne t k k' p' hk]
      show k' :: iKeys (ierase t k) = _
      rw [ih]
      simp [iKeys, List.filter_cons, hk]

lemma nodup_ierase (idx : Index) (k : String) (h : (iKeys idx).Nodup) :
    (iKeys (ierase idx k)).Nodup := by
  rw [iKeys_ierase]
  exact h.filter _

lemma nodup_stepIndex (seg off : Nat) (idx : Index) (c : Command)
    (h : (iKeys idx).Nodup) : (iKeys (stepIndex seg off idx c)).Nodup := by
  cases c with
  | set k v => exact nodup_iinsert idx k _ h
  | remove k => exact nodup_ierase idx k h

lemma loadGo_accounting (seg : Nat) (f : List Command) :
    ∀ (off : Nat) (idx : Index) (unc : Nat), (iKeys idx).Nodup →
    (loadGo seg f off (idx, unc)).2 + liveBytes (loadGo seg f off (idx, unc)).1
      = unc + liveBytes idx + setBytesF f := by
  induction f with
  | nil =>
    intro off idx unc h
    simp [loadGo, setBytesF]
  | cons c cs ih =>
    intro off idx unc h
    rw [loadGo]
    have hstep := ih (off + encLen c) (stepIndex seg off idx c)
      (unc + displaced idx c) (nodup_stepIndex _ _ _ _ h)
    rw [hstep]
    cases c with
    | set k v =>
      have hins : liveBytes (iinsert idx k ⟨seg, off, encLen (.set k v)⟩) + dlen idx k
          = liveBytes idx + encLen (.set k v) := by
        simpa using liveBytes_iinsert idx k ⟨seg, off, encLen (.set k v)⟩
      have hd : displaced idx (Command.set k v) = dlen idx k := rfl
      have hst : stepIndex seg off idx (Command.set k v)
          = iinsert idx k ⟨seg, off, encLen (.set k v)⟩ := rfl
      have hsb : setBytesF (Command.set k v :: cs)
          = encLen (Command.set k v) + setBytesF cs := by
        simp [setBytesF]
      rw [hd, hst, hsb]
      omega
    | remove k =>
      have hers := liveBytes_ierase idx k h
      have hd : displaced idx (Command.remove k) = dlen idx k := rfl
      have hst : stepIndex seg off idx (Command.remove k) = ierase idx k := rfl
      have hsb : setBytesF (Command.remove k :: cs) = setBytesF cs := by
        simp [setBytesF]
      rw [hd, hst, hsb]
      omega

lemma loadGo_nodup (seg : Nat) (f : List Command) :
    ∀ (off : Nat) (idx : Index) (unc : Nat), (iKeys idx).Nodup →
    (iKeys (loadGo seg f off (idx, unc)).1).Nodup := by
  induction f with
  | nil => intro off idx unc h; simpa [loadGo] using h
  | cons c cs ih =>
    intro off idx unc h
    rw [loadGo]
    exact ih _ _ _ (nodup_stepIndex _ _ _ _ h)

lemma fold_load_accounting :
    ∀ (d : Disk) (idx : Index) (unc : Nat), (iKeys idx).Nodup →
    (d.foldl loadSegment (idx, unc)).2 + liveBytes (d.foldl loadSegment (idx, unc)).1
      = unc + liveBytes idx + setBytes d
      ∧ (iKeys (d.foldl loadSegment (idx, unc)).1).Nodup := by
  intro d
  induction d with
  | nil =>
    intro idx unc h
    exact ⟨by simp [setBytes], h⟩
  | cons p t ih =>
    intro idx unc h
    obtain ⟨seg, f⟩ := p
    rw [List.foldl_cons]
    have hload : loadSegment (idx, unc) (seg, f) = loadGo seg f 0 (idx, unc) := rfl
    rw [hload]
    have hacc := loadGo_accounting seg f 0 idx unc h
    have hnod := loadGo_nodup seg f 0 idx unc h
    rcases hpair : loadGo seg f 0 (idx, unc) with ⟨idx2, unc2⟩
    rw [hpair] at hacc hnod
    dsimp only at hacc hnod
    have ihh := ih idx2 unc2 hnod
    have hsb : setBytes ((seg, f) :: t) = setBytesF f + setBytes t := by
      simp [setBytes]
    refine ⟨?_, ihh.2⟩
    rw [ihh.1, hsb]
    omega

lemma loadAll_accounting (d : Disk) :
    (loadAll d).2 + liveBytes (loadAll d).1 = setBytes d := by
  have h := fold_load_accounting d [] 0 (by simp [iKeys])
  simpa [loadAll, liveBytes] using h.1

lemma strictAscB_pairwise (l : List Nat) (h : strictAscB l = true) :
    List.Pairwise (· < ·) l := by
  induction l with
  | nil => exact List.Pairwise.nil
  | cons a t ih =>
    cases t with
    | nil => simp
    | cons b t' =>
      rw [strictAscB, Bool.and_eq_true] at h
      have hab : a < b := of_decide_eq_true h.1
      have hrest := ih h.2
      rw [List.pairwise_cons]
      refine ⟨?_, hrest⟩
      intro x hx
      rcases List.mem_cons.mp hx with rfl | hx'
      · exact hab
      · have hb := (List.pairwise_cons.mp hrest).1 x hx'
        omega

lemma encLen_pos (c : Command) : 0 < encLen c := by
  cases c <;> simp [encLen]

lemma decodeAt_append_sound (f g : List Command) (off : Nat) (c : Command)
    (h : decodeAt f off = .ok (some c)) : decodeAt (f ++ g) off = .ok (some c) := by
  induction f generalizing off with
  | nil => simp [decodeAt] at h
  | cons x f' ih =>
    rw [decodeAt] at h
    rw [List.cons_append, decodeAt]
    by_cases h0 : off = 0
    · simpa [h0] using h
    · rw [if_neg h0] at h ⊢
      by_cases hlt : off < encLen x
      · rw [if_pos hlt] at h
        exact absurd h (by simp)
      · rw [if_neg hlt] at h ⊢
        exact ih _ h

lemma decodeAt_concat (f : List Command) (c : Command) :
    decodeAt (f ++ [c]) (fileLen f) = .ok (some c) := by
  induction f with
  | nil => rfl
  | cons x f' ih =>
    have hfl : fileLen (x :: f') = encLen x + fileLen f' := by simp [fileLen]
    rw [List.cons_append, decodeAt, hfl]
    have hpos := encLen_pos x
    rw [if_neg (by omega), if_neg (by omega)]
    have : encLen x + fileLen f' - encLen x = fileLen f' := by omega
    rw [this]
    exact ih

lemma ilookup_iinsert_self (idx : Index) (k : String) (p : CommandPosition) :
    ilookup (iinsert idx k p) k = some p := by
  induction idx with
  | nil => simp [iinsert, ilookup]
  | cons q t ih =>
    obtain ⟨k', p'⟩ := q
    by_cases h : k' = k
    · simp [iinsert, h, ilookup]
    · simp [iinsert, h, ilookup, ih]

lemma ilookup_iinsert_ne (idx : Index) (k k' : String) (p : CommandPosition)
    (h : k' ≠ k) : ilookup (iinsert idx k p) k' = ilookup idx k' := by
  induction idx with
  | nil => simp [iinsert, ilookup, Ne.symm h]
  | cons q t ih =>
    obtain ⟨k'', p''⟩ := q
    by_cases h2 : k'' = k
    · subst h2
      simp [iinsert, ilookup, Ne.symm h]
    · by_cases h3 : k'' = k'
      · simp [iinsert, h2, ilookup, h3, h]
      · simp [iinsert, h2, ilookup, h3, ih]

lemma ilookup_ierase_self (idx : Index) (k : String) :
    ilookup (ierase idx k) k = none := by
  induction idx with
  | nil => rfl
  | cons q t ih =>
    obtain ⟨k', p'⟩ := q
    by_cases h : k' = k
    · subst h
      rw [ierase_cons_eq]
      exact ih
    · rw [ierase_cons_ne t k k' p' h, ilookup, if_neg h]
      exact ih

lemma ilookup_ierase_ne (idx : Index) (k k' : String) (h : k' ≠ k) :
    ilookup (ierase idx k) k' = ilookup idx k' := by
  induction idx with
  | nil => rfl
  | cons q t ih =>
    obtain ⟨k'', p''⟩ := q
    by_cases h2 : k'' = k
    · subst h2
      rw [ierase_cons_eq, ilookup, if_neg (fun he => h he.symm)]
      exact ih
    · rw [ierase_cons_ne t k k'' p'' h2, ilookup, ilookup]
      by_cases h3 : k'' = k'
      · simp [h3]
      · simp [h3, ih]

lemma alookup_fappend_self (d : Disk) (seg : Nat) (c : Command) (f : List Command)
    (h : alookup d seg = some f) :
    alookup (fappend d seg c) seg = some (f ++ [c]) := by
  induction d with
  | nil => simp [alookup] at h
  | cons p t ih =>
    obtain ⟨a, g⟩ := p
    by_cases ha : a = seg
    · subst ha
      rw [alookup, if_pos rfl] at h
      rw [fappend, if_pos rfl, alookup, if_pos rfl, Option.some_inj.mp h]
    · rw [alookup, if_neg ha] at h
      rw [fappend, if_neg ha, alookup, if_neg ha]
      exact ih h

lemma alookup_fappend_ne (d : Disk) (seg i : Nat) (c : Command) (h : i ≠ seg) :
    alookup (fappend d seg c) i = alookup d i := by
  induction d with
  | nil => simp [fappend, alookup, Ne.symm h]
  | cons p t ih =>
    obtain ⟨a, g⟩ := p
    by_cases ha : a = seg
    · subst ha
      rw [fappend, if_pos rfl, alookup, alookup, if_neg (fun he => h he.symm),
        if_neg (fun he => h he.symm)]
    · rw [fappend, if_neg ha, alookup, alookup]
      by_cases hai : a = i
      · simp [hai]
      · simp [hai, ih]

lemma alookup_getLast (d : Disk) (seg : Nat) (f : List Command)
    (hp : List.Pairwise (· < ·) (fileIds d))
    (hlast : d.getLast? = some (seg, f)) :
    alookup d seg = some f := by
  induction d with
  | nil => simp at hlast
  | cons p t ih =>
    obtain ⟨a, g⟩ := p
    cases t with
    | nil =>
      simp only [List.getLast?_singleton, Option.some_inj] at hlast
      injection hlast with h1 h2
      subst h1
      subst h2
      simp [alookup]
    | cons q t' =>
      rw [List.getLast?_cons_cons] at hlast
      rw [fileIds, List.map_cons, List.pairwise_cons] at hp
      have hseg : seg ∈ fileIds (q :: t') := by
        have hmem : (seg, f) ∈ q :: t' := List.mem_of_getLast?_eq_some hlast
        exact List.mem_map_of_mem Prod.fst hmem
      have hane : a ≠ seg := Nat.ne_of_lt (hp.1 seg hseg)
      rw [alookup, if_neg hane]
      exact ih (by simpa [fileIds] using hp.2) hlast

lemma fappend_last (d : Disk) (seg : Nat) (f : List Command) (c : Command)
    (hp : List.Pairwise (· < ·) (fileIds d))
    (hlast : d.getLast? = some (seg, f)) :
    fappend d seg c = d.dropLast ++ [(seg, f ++ [c])] := by
  induction d with
  | nil => simp at hlast
  | cons p t ih =>
    obtain ⟨a, g⟩ := p
    cases t with
    | nil =>
      simp only [List.getLast?_singleton, Option.some_inj] at hlast
      injection hlast with h1 h2
      subst h1
      subst h2
      simp [fappend]
    | cons q t' =>
      rw [List.getLast?_cons_cons] at hlast
      rw [fileIds, List.map_cons, List.pairwise_cons] at hp
      have hseg : seg ∈ fileIds (q :: t') := by
        have hmem : (seg, f) ∈ q :: t' := List.mem_of_getLast?_eq_some hlast
        exact List.mem_map_of_mem Prod.fst hmem
      have hane : a ≠ seg := Nat.ne_of_lt (hp.1 seg hseg)
      rw [fappend, if_neg hane, ih (by simpa [fileIds] using hp.2) hlast]
      rfl

lemma loadGo_snoc (seg : Nat) (f : List Command) (c : Command) :
    ∀ (off : Nat) (acc : Index × Nat),
    loadGo seg (f ++ [c]) off acc
      = (stepIndex seg (off + fileLen f) (loadGo seg f off acc).1 c,
         (loadGo seg f off acc).2 + displaced (loadGo seg f off acc).1 c) := by
  induction f with
  | nil =>
    intro off acc
    obtain ⟨idx, unc⟩ := acc
    simp [loadGo, fileLen]
  | cons x f' ih =>
    intro off acc
    obtain ⟨idx, unc⟩ := acc
    rw [List.cons_append, loadGo, ih, loadGo]
    have hfl : fileLen (x :: f') = encLen x + fileLen f' := by simp [fileLen]
    rw [hfl, Nat.add_assoc]

lemma activeOk_elim (s : KvStore) (h : activeOkB s = true) :
    ∃ f, s.files.getLast? = some (s.segment, f) ∧ s.offset = fileLen f := by
  rw [activeOkB] at h
  split at h
  · rename_i p heq
    rw [Bool.and_eq_true, decide_eq_true_eq, decide_eq_true_eq] at h
    obtain ⟨a, f⟩ := p
    dsimp only at h
    exact ⟨f, by rw [heq, h.1], h.2⟩
  · exact absurd h (by simp)

lemma fileIds_concat (l : List (Nat × List Command)) (seg : Nat) (x : List Command) :
    fileIds (l ++ [(seg, x)]) = fileIds l ++ [seg] := by
  simp [fileIds]

lemma fileLen_snoc (f : List Command) (c : Command) :
    fileLen (f ++ [c]) = fileLen f + encLen c := by
  simp [fileLen]

lemma loadAll_snoc (l : Disk) (seg : Nat) (g : List Command) :
    loadAll (l ++ [(seg, g)]) = loadGo seg g 0 (loadAll l) := by
  rw [loadAll, List.foldl_append]
  rfl

lemma dropLast_concat_getLast (d : Disk) (seg : Nat) (f : List Command)
    (hlast : d.getLast? = some (seg, f)) :
    d = d.dropLast ++ [(seg, f)] := by
  have hne : d ≠ [] := by
    intro he
    rw [he] at hlast
    simp at hlast
  have h1 := List.dropLast_append_getLast hne
  have h2 : d.getLast hne = (seg, f) := by
    rw [List.getLast?_eq_getLast_of_ne_nil hne, Option.some_inj] at hlast
    exact hlast
  rw [h2] at h1
  exact h1.symm

lemma invB_elim (s : KvStore) (h : InvB s = true) :
    strictAscB (fileIds s.files) = true
    ∧ activeOkB s = true
    ∧ s.index = (loadAll s.files).1
    ∧ s.uncompacted = (loadAll s.files).2 := by
  rw [InvB, Bool.and_eq_true, Bool.and_eq_true, Bool.and_eq_true] at h
  exact ⟨h.1.1.1, h.1.1.2, of_decide_eq_true h.1.2, of_decide_eq_true h.2⟩

lemma invB_intro (s : KvStore)
    (h1 : strictAscB (fileIds s.files) = true)
    (h2 : activeOkB s = true)
    (h3 : s.index = (loadAll s.files).1)
    (h4 : s.uncompacted = (loadAll s.files).2) : InvB s = true := by
  rw [InvB, Bool.and_eq_true, Bool.and_eq_true, Bool.and_eq_true]
  exact ⟨⟨⟨h1, h2⟩, decide_eq_true h3⟩, decide_eq_true h4⟩

lemma stale_entry_stays (s : KvStore) (c : Command) (f : List Command)
    (hp : List.Pairwise (· < ·) (fileIds s.files))
    (hlast : s.files.getLast? = some (s.segment, f))
    (k' : String) (p' : CommandPosition)
    (hold : ∃ file v, alookup s.files p'.segment = some file
        ∧ decodeAt file p'.offset = .ok (some (.set k' v))
        ∧ p'.len = encLen (.set k' v)) :
    ∃ file v, alookup (fappend s.files s.segment c) p'.segment = some file
        ∧ decodeAt file p'.offset = .ok (some (.set k' v))
        ∧ p'.len = encLen (.set k' v) := by
  obtain ⟨file0, v0, ha, hd, hl⟩ := hold
  by_cases hseg : p'.segment = s.segment
  · have halk := alookup_getLast s.files s.segment f hp hlast
    rw [hseg] at ha
    rw [halk, Option.some_inj] at ha
    subst ha
    refine ⟨f ++ [c], v0, ?_, decodeAt_append_sound f [c] _ _ hd, hl⟩
    rw [hseg]
    exact alookup_fappend_self _ _ _ _ halk
  · exact ⟨file0, v0, by rw [alookup_fappend_ne _ _ _ _ hseg]; exact ha, hd, hl⟩

lemma loadAll_applyBase (s : KvStore) (c : Command) (f : List Command)
    (hp : List.Pairwise (· < ·) (fileIds s.files))
    (hlast : s.files.getLast? = some (s.segment, f))
    (hoff : s.offset = fileLen f) :
    loadAll ((applyBase s c).files)
      = (stepIndex s.segment s.offset (loadAll s.files).1 c,
         (loadAll s.files).2 + displaced (loadAll s.files).1 c) := by
  have hfiles : (applyBase s c).files = s.files.dropLast ++ [(s.segment, f ++ [c])] :=
    fappend_last s.files s.segment f c hp hlast
  rw [hfiles, loadAll_snoc, loadGo_snoc]
  have hX : loadGo s.segment f 0 (loadAll s.files.dropLast) = loadAll s.files := by
    rw [← loadAll_snoc, ← dropLast_concat_getLast s.files s.segment f hlast]
  rw [hX, Nat.zero_add, ← hoff]

lemma good_applyBase (s : KvStore) (c : Command) (h : Good s) : Good (applyBase s c) := by
  obtain ⟨hInv, hPt⟩ := h
  obtain ⟨h1, h2, h3, h4⟩ := invB_elim s hInv
  obtain ⟨f, hlast, hoff⟩ := activeOk_elim s h2
  have hp := strictAscB_pairwise _ h1
  have hfiles : (applyBase s c).files = s.files.dropLast ++ [(s.segment, f ++ [c])] :=
    fappend_last s.files s.segment f c hp hlast
  have hids : fileIds ((applyBase s c).files) = fileIds s.files := by
    rw [hfiles, fileIds_concat]
    conv_rhs => rw [dropLast_concat_getLast s.files s.segment f hlast]
    rw [fileIds_concat]
  have hload := loadAll_applyBase s c f hp hlast hoff
  constructor
  · apply invB_intro
    · rw [hids]
      exact h1
    · rw [activeOkB]
      have hgl : ((applyBase s c).files).getLast? = some (s.segment, f ++ [c]) := by
        rw [hfiles]
        exact List.getLast?_concat _
      rw [hgl]
      show (decide ((s.segment, f ++ [c]).1 = s.segment)
          && decide (s.offset + encLen c = fileLen (f ++ [c]))) = true
      rw [Bool.and_eq_true, decide_eq_true_eq, decide_eq_true_eq]
      exact ⟨rfl, by rw [fileLen_snoc, hoff]⟩
    · show stepIndex s.segment s.offset s.index c = _
      rw [hload, h3]
    · show s.uncompacted + displaced s.index c = _
      rw [hload, h3, h4]
  · intro k' p' hlk
    cases c with
    | set k v =>
      change ilookup (iinsert s.index k ⟨s.segment, s.offset, encLen (.set k v)⟩) k'
          = some p' at hlk
      by_cases hk : k' = k
      · subst hk
        rw [ilookup_iinsert_self, Option.some_inj] at hlk
        subst hlk
        refine ⟨f ++ [Command.set k' v], v, ?_, ?_, rfl⟩
        · show alookup (fappend s.files s.segment (.set k' v)) s.segment = _
          exact alookup_fappend_self _ _ _ _ (alookup_getLast s.files s.segment f hp hlast)
        · show decodeAt (f ++ [Command.set k' v]) s.offset = _
          rw [hoff]
          exact decodeAt_concat f _
      · rw [ilookup_iinsert_ne _ _ _ _ hk] at hlk
        exact stale_entry_stays s _ f hp hlast k' p' (hPt k' p' hlk)
    | remove k =>
      change ilookup (ierase s.index k) k' = some p' at hlk
      by_cases hk : k' = k
      · subst hk
        rw [ilookup_ierase_self] at hlk
        exact absurd hlk (by simp)
      · rw [ilookup_ierase_ne _ _ _ hk] at hlk
        exact stale_entry_stays s _ f hp hlast k' p' (hPt k' p' hlk)

lemma foldl_congr_mem {α β : Type} (l : List α) (g1 g2 : β → α → β) (a : β)
    (h : ∀ b x, x ∈ l → g1 b x = g2 b x) : l.foldl g1 a = l.foldl g2 a := by
  induction l generalizing a with
  | nil => rfl
  | cons x t ih =>
    rw [List.foldl_cons, List.foldl_cons, h a x (List.mem_cons_self _ _)]
    exact ih _ (fun b y hy => h b y (List.mem_cons_of_mem x hy))

lemma openFold (d : Disk) (hnd : (fileIds d).Nodup) :
    ∀ (startIU : Index × Nat) (startR : Readers),
    ((fileIds d).foldl (openLoad d) (startIU, startR)).1
      = d.foldl loadSegment startIU := by
  induction d with
  | nil =>
    intro startIU startR
    rfl
  | cons p t ih =>
    intro startIU startR
    obtain ⟨i, f⟩ := p
    rw [fileIds, List.map_cons, List.foldl_cons, List.foldl_cons]
    rw [fileIds, List.map_cons, List.nodup_cons] at hnd
    have hstep : openLoad ((i, f) :: t) (startIU, startR) i
        = (loadGo i f 0 startIU, rinsert startR i (fileLen f)) := by
      rw [openLoad, alookup, if_pos rfl]
    rw [hstep]
    have hcongr : ∀ (b : (Index × Nat) × Readers) (x : Nat), x ∈ List.map Prod.fst t →
        openLoad ((i, f) :: t) b x = openLoad t b x := by
      intro b x hx
      have hne : i ≠ x := fun he => hnd.1 (he ▸ hx)
      rw [openLoad, openLoad, alookup, if_neg hne]
    rw [foldl_congr_mem _ _ _ _ hcongr]
    exact ih hnd.2 _ _

lemma openStore_eq_loadAll (d : Disk) (h1 : strictAscB (fileIds d) = true) :
    (openStore d).index = (loadAll d).1 ∧ (openStore d).uncompacted = (loadAll d).2 := by
  have hp := strictAscB_pairwise _ h1
  have hsorted : List.Sorted (· ≤ ·) (d.map Prod.fst) :=
    hp.imp (fun h => Nat.le_of_lt h)
  have hnd : (fileIds d).Nodup := hp.imp (fun h => Nat.ne_of_lt h)
  have hseq : List.insertionSort (· ≤ ·) (d.map Prod.fst) = d.map Prod.fst :=
    hsorted.insertionSort_eq
  have hfold := openFold d hnd ([], 0) []
  have hfile : fileIds d = d.map Prod.fst := rfl
  rw [hfile] at hfold
  constructor
  · show (List.foldl (openLoad d) (([], 0), [])
        (List.insertionSort (· ≤ ·) (d.map Prod.fst))).1.1 = _
    rw [hseq, hfold]
    rfl
  · show (List.foldl (openLoad d) (([], 0), [])
        (List.insertionSort (· ≤ ·) (d.map Prod.fst))).1.2 = _
    rw [hseq, hfold]
    rfl

/-- C6 amended: in every store state satisfying the reachability
invariant Good (established at open on an empty directory and preserved
by every base apply step, i.e. every set/remove write that does not
trigger compaction), the uncompacted counter plus the bytes of the Set
commands referenced by the Index equals the total bytes of Set commands
in the existing segments — equivalently, uncompacted equals the bytes of
Set commands no longer reachable from the Index.  The bytes of Remove
commands are never counted (the original claim fails there, see the
counterexample).  Good also states that the index and the counter are
exactly what a replay of the current disk recomputes, so the counter is
recomputed from scratch by open and maintained incrementally by apply. -/
theorem uncompacted_accounting :
    Good (openStore [])
    ∧ (∀ s c, Good s → Good (applyBase s c))
    ∧ (∀ s, Good s → s.uncompacted + liveBytes s.index = setBytes s.files)
    ∧ (∀ s, Good s → (openStore s.files).index = s.index
        ∧ (openStore s.files).uncompacted = s.uncompacted) := by
  have hbase : Good (openStore []) := by
    constructor
    · decide
    · intro k p hk
      have he : (openStore []).index = [] := rfl
      rw [he] at hk
      exact absurd hk (by simp [ilookup])
  refine ⟨hbase, fun s c h => good_applyBase s c h, ?_, ?_⟩
  · intro s hg
    obtain ⟨h1, h2, h3, h4⟩ := invB_elim s hg.1
    rw [h3, h4]
    exact loadAll_accounting s.files
  · intro s hg
    obtain ⟨h1, h2, h3, h4⟩ := invB_elim s hg.1
    have hop := openStore_eq_loadAll s.files h1
    exact ⟨hop.1.trans h3.symm, hop.2.trans h4.symm⟩

/-- Witness for C6 at a concrete input: the invariant, the accounting
equation and the replay equation after one set on a fresh store. -/
theorem uncompacted_accounting_witness :
    Good (applyBase (openStore []) (.set "a" "1"))
    ∧ (applyBase (openStore []) (.set "a" "1")).uncompacted
        + liveBytes (applyBase (openStore []) (.set "a" "1")).index
        = setBytes (applyBase (openStore []) (.set "a" "1")).files
    ∧ (openStore (applyBase (openStore []) (.set "a" "1")).files).index
        = (applyBase (openStore []) (.set "a" "1")).index :=
  have hg : Good (applyBase (openStore []) (.set "a" "1")) :=
    uncompacted_accounting.2.1 (openStore []) (.set "a" "1") uncompacted_accounting.1
  ⟨hg, uncompacted_accounting.2.2.1 _ hg, (uncompacted_accounting.2.2.2 _ hg).1⟩

end Kvs
